import Mathlib

/-!
Shallow embedding of the `approx_entropy` crate (entropy estimation by
subsampling and polynomial extrapolation), together with proofs checking its
specification.

Modelling conventions:
* Histograms and sample sequences (`&[usize]` / `Vec<usize>`) are `List Nat`.
* `f64` values are modelled by the type `FP` below: finite values are exact
  real numbers, and the IEEE special values `+∞`, `-∞`, `NaN` are explicit
  constructors.  The special-value propagation rules of the operations used by
  the crate (`ln`, `-`, `*`, `/`) follow IEEE 754 exactly (signed zeros are
  identified); rounding of finite arithmetic is idealised to exact real
  arithmetic.
* Rust methods taking `&mut self` and returning `Result<&mut Self, E>` are
  state-passing functions returning `Except E Unit × State`; on error the
  returned state is the unchanged receiver, as in the source.
* A reachable panic (`unwrap` of an `Err`, out-of-bounds index, `pop` of an
  empty vector) is modelled by `Option`, with `none` standing for the panic.
-/

namespace ApproxEntropy

/-- IEEE-754 double-precision values, with finite values idealised as exact
reals and the special values kept explicit. -/
inductive FP where
  | finite (x : ℝ)
  | posInf
  | negInf
  | nan

namespace FP

/-- `f64::ln`: logarithm with IEEE special-value rules
(`ln 0 = -∞`, `ln x = NaN` for `x < 0`). -/
noncomputable def ln : FP → FP
  | finite x => if 0 < x then finite (Real.log x) else if x = 0 then negInf else nan
  | posInf => posInf
  | negInf => nan
  | nan => nan

/-- `f64` subtraction with IEEE special-value rules (`∞ - ∞ = NaN`). -/
def sub : FP → FP → FP
  | nan, _ => nan
  | _, nan => nan
  | finite x, finite y => finite (x - y)
  | finite _, posInf => negInf
  | finite _, negInf => posInf
  | posInf, negInf => posInf
  | posInf, _ => posInf
  | negInf, posInf => negInf
  | negInf, _ => negInf

/-- `f64` multiplication with IEEE special-value rules (`0 * ±∞ = NaN`). -/
noncomputable def mul : FP → FP → FP
  | nan, _ => nan
  | _, nan => nan
  | finite x, finite y => finite (x * y)
  | finite x, posInf => if x = 0 then nan else if 0 < x then posInf else negInf
  | finite x, negInf => if x = 0 then nan else if 0 < x then negInf else posInf
  | posInf, finite y => if y = 0 then nan else if 0 < y then posInf else negInf
  | negInf, finite y => if y = 0 then nan else if 0 < y then negInf else posInf
  | posInf, posInf => posInf
  | posInf, negInf => negInf
  | negInf, posInf => negInf
  | negInf, negInf => posInf

/-- `f64` division with IEEE special-value rules (`0/0 = NaN`, `∞/∞ = NaN`;
signed zeros are identified, so `x/0` for `x ≠ 0` uses the sign of `x`). -/
noncomputable def div : FP → FP → FP
  | nan, _ => nan
  | _, nan => nan
  | finite x, finite y =>
      if y = 0 then (if x = 0 then nan else if 0 < x then posInf else negInf)
      else finite (x / y)
  | finite _, posInf => finite 0
  | finite _, negInf => finite 0
  | posInf, finite y => if 0 ≤ y then posInf else negInf
  | negInf, finite y => if 0 ≤ y then negInf else posInf
  | posInf, _ => nan
  | negInf, _ => nan

end FP

/-! ## `src/estimator/naive.rs` -/

/-- `NaiveEstimator`: holds the borrowed unnormalized distribution. -/
structure NaiveEstimator where
  unnorm_distr : List Nat
deriving DecidableEq

/-- The `NullDistribution` error of `naive.rs`. -/
inductive NullDistribution where
  | nullDistribution
deriving DecidableEq

/-- `NaiveEstimator::new_unchecked`. -/
def NaiveEstimator.new_unchecked (unnorm_distr : List Nat) : NaiveEstimator :=
  ⟨unnorm_distr⟩

/-- `NaiveEstimator::new`: errors iff the counts sum to zero. -/
def NaiveEstimator.new (unnorm_distr : List Nat) :
    Except NullDistribution NaiveEstimator :=
  if unnorm_distr.sum = 0 then .error .nullDistribution
  else .ok (NaiveEstimator.new_unchecked unnorm_distr)

/-- `NaiveEstimator::entropy`:
`let all = sum as f64; for r in counts { entropy -= r * (r.ln() - all.ln()) };
entropy / all`, with every `f64` operation modelled by `FP`. -/
noncomputable def NaiveEstimator.entropy (e : NaiveEstimator) : FP :=
  let all : FP := .finite ((e.unnorm_distr.sum : ℕ) : ℝ)
  FP.div
    (e.unnorm_distr.foldl
      (fun acc c =>
        FP.sub acc
          (FP.mul (.finite ((c : ℕ) : ℝ))
            (FP.sub (FP.ln (.finite ((c : ℕ) : ℝ))) (FP.ln all))))
      (.finite 0))
    all

/-! ## `src/utils.rs` -/

/-- `count_dup`: occurrence counts of the distinct elements of `samples`.
The source iterates a `HashMap`, so its output order is unspecified; we fix
first-occurrence order, on which no verified property depends. -/
def count_dup (samples : List Nat) : List Nat :=
  (samples.foldl (fun acc x => if x ∈ acc then acc else acc ++ [x]) []).map
    (fun x => samples.count x)

/-! ## `src/sampling_method/bootstrap.rs` -/

/-- `Bootstrap<R>`: histogram-backed randomized strategy with an owned
random generator of abstract type `R`. -/
structure Bootstrap (R : Type) where
  num_groups : Nat
  degree : Nat
  unnorm_distr : List Nat
  rng : R
deriving DecidableEq

/-- `bootstrap::ConstructionError`. -/
inductive Bootstrap.ConstructionError where
  | tooFewSamples
  | lowNumGroups
deriving DecidableEq

/-- The `LowNumGroups` error of `bootstrap.rs`. -/
inductive LowNumGroups where
  | lowNumGroups
deriving DecidableEq

/-- The `HighDegree` error of `bootstrap.rs`. -/
inductive HighDegree where
  | highDegree
deriving DecidableEq

/-- The `TooFewSamples` error of `bootstrap.rs`. -/
inductive TooFewSamples where
  | tooFewSamples
deriving DecidableEq

/-- `Bootstrap::new_unchecked`. -/
def Bootstrap.new_unchecked {R : Type} (unnorm_distr : List Nat)
    (num_groups degree : Nat) (rng : R) : Bootstrap R :=
  ⟨num_groups, degree, unnorm_distr, rng⟩

/-- `Bootstrap::new`: checks `num_groups > degree`, then
`available_samples >= 1 << num_groups`. -/
def Bootstrap.new {R : Type} (unnorm_distr : List Nat) (num_groups degree : Nat)
    (rng : R) : Except Bootstrap.ConstructionError (Bootstrap R) :=
  if num_groups > degree then
    if unnorm_distr.sum ≥ 1 <<< num_groups then
      .ok (Bootstrap.new_unchecked unnorm_distr num_groups degree rng)
    else
      .error .tooFewSamples
  else
    .error .lowNumGroups

/-- `Bootstrap::set_degree` (`&mut self` modelled by returning the state). -/
def Bootstrap.set_degree {R : Type} (b : Bootstrap R) (degree : Nat) :
    Except HighDegree Unit × Bootstrap R :=
  if b.num_groups > degree then (.ok (), { b with degree := degree })
  else (.error .highDegree, b)

/-- `Bootstrap::set_num_groups`. -/
def Bootstrap.set_num_groups {R : Type} (b : Bootstrap R) (num_groups : Nat) :
    Except LowNumGroups Unit × Bootstrap R :=
  if num_groups > b.degree then (.ok (), { b with num_groups := num_groups })
  else (.error .lowNumGroups, b)

/-- `Bootstrap::set_unnorm_distr`. -/
def Bootstrap.set_unnorm_distr {R : Type} (b : Bootstrap R)
    (unnorm_distr : List Nat) : Except TooFewSamples Unit × Bootstrap R :=
  if unnorm_distr.sum ≥ 1 <<< b.num_groups then
    (.ok (), { b with unnorm_distr := unnorm_distr })
  else (.error .tooFewSamples, b)

/-- `Bootstrap::size_subsamples`: group `i` draws `available_samples >> (i+1)`
elements. -/
def Bootstrap.size_subsamples {R : Type} (b : Bootstrap R) : List Nat :=
  (List.range b.num_groups).map (fun i => b.unnorm_distr.sum >>> (i + 1))

/-- `Bootstrap::samples_rep`: group `i` is repeated `1 << i` times. -/
def Bootstrap.samples_rep {R : Type} (b : Bootstrap R) : List Nat :=
  (List.range b.num_groups).map (fun i => 1 <<< i)

/-- `SamplingMethod::total_samples` (default body in `traits.rs`):
`samples_rep().iter().sum()`. -/
def Bootstrap.total_samples {R : Type} (b : Bootstrap R) : Nat :=
  b.samples_rep.sum

/-! ## `src/sampling_method/fixed_partition.rs` -/

/-- `FixedPartition`. -/
structure FixedPartition where
  samples : List Nat
  size_subsamples : List Nat
  samples_rep : List Nat
  degree : Nat
deriving DecidableEq

/-- `fixed_partition::ConstructionError`. -/
inductive FixedPartition.ConstructionError where
  | tooFewSamples
  | lowNumGroups
  | tooManyRepetitions
  | tooManySubsampleSizes
  | nullRepetition
  | nullSubsampleSize
deriving DecidableEq

/-- The `TooHighDegree` error of `fixed_partition.rs`. -/
inductive TooHighDegree where
  | tooHighDegree
deriving DecidableEq

/-- The `Immutable` error of `fixed_partition.rs`. -/
inductive Immutable where
  | immutable
deriving DecidableEq

/-- `FixedPartition::new_unchecked`. -/
def FixedPartition.new_unchecked (samples size_subsamples samples_rep : List Nat)
    (degree : Nat) : FixedPartition :=
  ⟨samples, size_subsamples, samples_rep, degree⟩

/-- `FixedPartition::new`: the six validation checks, in source order. -/
def FixedPartition.new (samples size_subsamples samples_rep : List Nat)
    (degree : Nat) : Except FixedPartition.ConstructionError FixedPartition :=
  let num_groups := size_subsamples.length
  if num_groups ≤ degree then .error .lowNumGroups
  else if samples_rep.length > size_subsamples.length then .error .tooManyRepetitions
  else if samples_rep.length < size_subsamples.length then .error .tooManySubsampleSizes
  else if samples_rep.any (fun rep => rep == 0) then .error .nullRepetition
  else if size_subsamples.any (fun size => size == 0) then .error .nullSubsampleSize
  else if samples.length <
      ((size_subsamples.zip samples_rep).map (fun p => p.1 * p.2)).sum then
    .error .tooFewSamples
  else
    .ok (FixedPartition.new_unchecked samples size_subsamples samples_rep degree)

/-- `FixedPartition::num_groups`: `size_subsamples.len()`. -/
def FixedPartition.num_groups (fp : FixedPartition) : Nat :=
  fp.size_subsamples.length

/-- `FixedPartition::set_degree`. -/
def FixedPartition.set_degree (fp : FixedPartition) (degree : Nat) :
    Except TooHighDegree Unit × FixedPartition :=
  if fp.num_groups > degree then (.ok (), { fp with degree := degree })
  else (.error .tooHighDegree, fp)

/-- `FixedPartition::set_num_groups`: always errors. -/
def FixedPartition.set_num_groups (fp : FixedPartition) (_num_groups : Nat) :
    Except Immutable Unit × FixedPartition :=
  (.error .immutable, fp)

/-- `FixedPartition::set_unnorm_distr`: always errors. -/
def FixedPartition.set_unnorm_distr (fp : FixedPartition)
    (_unnorm_distr : List Nat) : Except Immutable Unit × FixedPartition :=
  (.error .immutable, fp)

/-- `SamplingMethod::total_samples` (default body in `traits.rs`). -/
def FixedPartition.total_samples (fp : FixedPartition) : Nat :=
  fp.samples_rep.sum

/-- `(0..group_size).map(|_| sample_long.pop().unwrap())`: pop `n` elements off
the back of `l`, listing them in pop order; `none` models the `unwrap` panic on
an exhausted vector. -/
def popMany : List Nat → Nat → Option (List Nat × List Nat)
  | l, 0 => some ([], l)
  | l, n + 1 =>
    match l.getLast? with
    | none => none
    | some x =>
      match popMany l.dropLast n with
      | none => none
      | some (xs, rest) => some (x :: xs, rest)

/-- The inner `for _ in 0..repetitions` loop of
`FixedPartition::naive_entropies`: draw `rep` chunks of `size` elements,
producing one `(size, naive entropy)` observation per chunk. -/
noncomputable def drawGroup : Nat → Nat → List Nat →
    Option (List (Nat × FP) × List Nat)
  | 0, _, l => some ([], l)
  | rep + 1, size, l =>
    match popMany l size with
    | none => none
    | some (sub_sample, rest) =>
      match drawGroup rep size rest with
      | none => none
      | some (obs, final) =>
        some ((size, (NaiveEstimator.new_unchecked (count_dup sub_sample)).entropy)
          :: obs, final)

/-- The outer loop of `FixedPartition::naive_entropies` over
`size_subsamples().iter().enumerate()`, reading `samples_rep()[group_index]`;
`none` models the index panic when `samples_rep` is shorter than
`size_subsamples`. -/
noncomputable def naiveEntropiesAux :
    List Nat → List Nat → List Nat → Option (List (Nat × FP))
  | [], _, _ => some []
  | size :: sizes, reps, l =>
    match reps.head? with
    | none => none
    | some rep =>
      match drawGroup rep size l with
      | none => none
      | some (obs, rest) =>
        match naiveEntropiesAux sizes reps.tail rest with
        | none => none
        | some more => some (obs ++ more)

/-- `FixedPartition::naive_entropies`: the source clones `self.samples` into
`sample_long` and pops from its back, so the stored state is returned
unchanged (the method never mutates `self`). -/
noncomputable def FixedPartition.naive_entropies (fp : FixedPartition) :
    Option (List (Nat × FP)) × FixedPartition :=
  (naiveEntropiesAux fp.size_subsamples fp.samples_rep fp.samples, fp)

/-- The loop of `SamplingMethod::size_subsamples_dup` (`traits.rs`): for each
size, indexed access `samples_rep[counter]` (panic modelled by `none`), then
push the size that many times. -/
def dupAux : List Nat → List Nat → Option (List Nat)
  | [], _ => some []
  | size :: sizes, reps =>
    match reps.head? with
    | none => none
    | some rep =>
      match dupAux sizes reps.tail with
      | none => none
      | some more => some (List.replicate rep size ++ more)

/-- `SamplingMethod::size_subsamples_dup` for `FixedPartition`. -/
def FixedPartition.size_subsamples_dup (fp : FixedPartition) :
    Option (List Nat) :=
  dupAux fp.size_subsamples fp.samples_rep

/-! ## `src/estimator.rs` and `src/estimator/direct.rs`: the `From` impls -/

/-- `DEFAULT_NUM_GROUPS` in `estimator.rs` / `direct.rs`. -/
def DEFAULT_NUM_GROUPS : Nat := 3

/-- `DEFAULT_DEGREE` in `estimator.rs` / `direct.rs`. -/
def DEFAULT_DEGREE : Nat := 2

/-- `Estimator<M>`. -/
structure Estimator (M : Type) where
  sampling_method : M
deriving DecidableEq

/-- `Estimator::new`. -/
def Estimator.new {M : Type} (sampling_method : M) : Estimator M :=
  ⟨sampling_method⟩

/-- `impl From<[usize; N]> for Estimator<Bootstrap<ThreadRng>>`:
`Bootstrap::new(&unnorm_distr, 3, 2, rng).unwrap()`; `none` models the
`unwrap` panic. -/
def Estimator.from_unnorm_distr {R : Type} (unnorm_distr : List Nat) (rng : R) :
    Option (Estimator (Bootstrap R)) :=
  (Bootstrap.new unnorm_distr DEFAULT_NUM_GROUPS DEFAULT_DEGREE rng).toOption.map
    Estimator.new

/-- `impl From<&[T]> for Estimator<Bootstrap<ThreadRng>>`: counts duplicates
with `count_dup`, then proceeds as the histogram conversion. -/
def Estimator.from_samples {R : Type} (samples : List Nat) (rng : R) :
    Option (Estimator (Bootstrap R)) :=
  Estimator.from_unnorm_distr (count_dup samples) rng

/-- `DirectEstimator<M>`. -/
structure DirectEstimator (M : Type) where
  sampling_method : M
deriving DecidableEq

/-- `DirectEstimator::new`. -/
def DirectEstimator.new {M : Type} (sampling_method : M) : DirectEstimator M :=
  ⟨sampling_method⟩

/-- `impl From<[usize; N]> for DirectEstimator<Bootstrap<ThreadRng>>`. -/
def DirectEstimator.from_unnorm_distr {R : Type} (unnorm_distr : List Nat)
    (rng : R) : Option (DirectEstimator (Bootstrap R)) :=
  (Bootstrap.new unnorm_distr DEFAULT_NUM_GROUPS DEFAULT_DEGREE rng).toOption.map
    DirectEstimator.new

/-- `impl From<&[T]> for DirectEstimator<Bootstrap<ThreadRng>>`. -/
def DirectEstimator.from_samples {R : Type} (samples : List Nat) (rng : R) :
    Option (DirectEstimator (Bootstrap R)) :=
  DirectEstimator.from_unnorm_distr (count_dup samples) rng

/-! ## Helper lemmas -/

theorem sum_map_shiftLeft_range (g : Nat) :
    ((List.range g).map (fun i => 1 <<< i)).sum = 2 ^ g - 1 := by
  have hp : ∀ m : Nat, ((List.range m).map (fun i => 2 ^ i)).sum = 2 ^ m - 1 := by
    intro m
    induction m with
    | zero => simp
    | succ n ih =>
      rw [List.range_succ, List.map_append, List.sum_append]
      have h1 : 0 < 2 ^ n := pow_pos (by norm_num) n
      simp only [List.map_cons, List.map_nil, List.sum_cons, List.sum_nil, ih]
      rw [pow_succ]
      omega
  have he : (fun i : Nat => 1 <<< i) = fun i : Nat => 2 ^ i := by
    funext i
    exact Nat.one_shiftLeft i
  rw [he, hp]

/-! ## Theorems for the claims -/

/-- C2: `NaiveEstimator::new(unnorm_distr)` fails with `NullDistribution` iff
the counts sum to 0; for every histogram with total ≥ 1 it succeeds and
returns an estimator over that very histogram. -/
theorem naive_new_null_iff (unnorm_distr : List Nat) :
    (NaiveEstimator.new unnorm_distr = .error .nullDistribution ↔
      unnorm_distr.sum = 0) ∧
    (1 ≤ unnorm_distr.sum →
      NaiveEstimator.new unnorm_distr = .ok ⟨unnorm_distr⟩) := by
  refine ⟨?_, fun h => ?_⟩
  · by_cases h : unnorm_distr.sum = 0 <;>
      simp [NaiveEstimator.new, NaiveEstimator.new_unchecked, h]
  · have h0 : unnorm_distr.sum ≠ 0 := by omega
    simp [NaiveEstimator.new, NaiveEstimator.new_unchecked, h0]

/-- Witness for C2 at the histogram `[1, 2, 3]`. -/
theorem naive_new_null_iff_witness :
    1 ≤ ([1, 2, 3] : List Nat).sum ∧
      NaiveEstimator.new [1, 2, 3] = .ok ⟨[1, 2, 3]⟩ :=
  ⟨by decide, (naive_new_null_iff [1, 2, 3]).2 (by decide)⟩

/-- C3: for every `Bootstrap`, the `i`-th subsample size is
`total_mass >> (i+1)`, the `i`-th repetition count is `2^i`, and
`total_samples` is `2^num_groups - 1`; concretely, for the histogram
`[1,2,3,4,5,6]` with 3 groups the schedule is `[10,5,2]`, `[1,2,4]`, `7`. -/
theorem bootstrap_schedule :
    (∀ (R : Type) (b : Bootstrap R) (i : Nat), i < b.num_groups →
      b.size_subsamples.getD i 0 = b.unnorm_distr.sum >>> (i + 1) ∧
      b.samples_rep.getD i 0 = 2 ^ i ∧
      b.total_samples = 2 ^ b.num_groups - 1) ∧
    (Bootstrap.size_subsamples (⟨3, 2, [1, 2, 3, 4, 5, 6], ()⟩ : Bootstrap Unit)
        = [10, 5, 2] ∧
      Bootstrap.samples_rep (⟨3, 2, [1, 2, 3, 4, 5, 6], ()⟩ : Bootstrap Unit)
        = [1, 2, 4] ∧
      Bootstrap.total_samples (⟨3, 2, [1, 2, 3, 4, 5, 6], ()⟩ : Bootstrap Unit)
        = 7) := by
  refine ⟨fun R b i hi => ⟨?_, ?_, ?_⟩, by decide, by decide, by decide⟩
  · simp [Bootstrap.size_subsamples, List.getD_eq_getElem?_getD,
      List.getElem?_map, List.getElem?_range, hi]
  · simp [Bootstrap.samples_rep, List.getD_eq_getElem?_getD,
      List.getElem?_map, List.getElem?_range, hi, Nat.one_shiftLeft]
  · rw [Bootstrap.total_samples, Bootstrap.samples_rep,
      sum_map_shiftLeft_range]

/-- Witness for C3 at the Bootstrap over `[1,2,3,4,5,6]` with 3 groups,
degree 2, at group index 0. -/
theorem bootstrap_schedule_witness :
    (0 < (⟨3, 2, [1, 2, 3, 4, 5, 6], ()⟩ : Bootstrap Unit).num_groups) ∧
    ((⟨3, 2, [1, 2, 3, 4, 5, 6], ()⟩ : Bootstrap Unit).size_subsamples.getD 0 0
        = ([1, 2, 3, 4, 5, 6] : List Nat).sum >>> 1 ∧
      (⟨3, 2, [1, 2, 3, 4, 5, 6], ()⟩ : Bootstrap Unit).samples_rep.getD 0 0
        = 2 ^ 0 ∧
      (⟨3, 2, [1, 2, 3, 4, 5, 6], ()⟩ : Bootstrap Unit).total_samples
        = 2 ^ (⟨3, 2, [1, 2, 3, 4, 5, 6], ()⟩ : Bootstrap Unit).num_groups - 1) :=
  ⟨by decide,
    bootstrap_schedule.1 Unit ⟨3, 2, [1, 2, 3, 4, 5, 6], ()⟩ 0 (by decide)⟩

/-- C4: `Bootstrap::new` succeeds iff `num_groups > degree` and the total mass
is at least `2^num_groups`; `num_groups ≤ degree` gives `LowNumGroups`, and
otherwise insufficient mass gives `TooFewSamples`. -/
theorem bootstrap_new_valid {R : Type} (unnorm_distr : List Nat)
    (num_groups degree : Nat) (rng : R) :
    ((∃ b, Bootstrap.new unnorm_distr num_groups degree rng = .ok b) ↔
      degree < num_groups ∧ 2 ^ num_groups ≤ unnorm_distr.sum) ∧
    (num_groups ≤ degree →
      Bootstrap.new unnorm_distr num_groups degree rng = .error .lowNumGroups) ∧
    (degree < num_groups → unnorm_distr.sum < 2 ^ num_groups →
      Bootstrap.new unnorm_distr num_groups degree rng
        = .error .tooFewSamples) := by
  have hs : (1 <<< num_groups : Nat) = 2 ^ num_groups :=
    Nat.one_shiftLeft num_groups
  simp only [Bootstrap.new, hs, ge_iff_le, gt_iff_lt]
  split_ifs with h1 h2
  · exact ⟨⟨fun _ => ⟨h1, h2⟩, fun _ => ⟨_, rfl⟩⟩,
      fun h => absurd h (by omega), fun _ h => absurd h (by omega)⟩
  · refine ⟨⟨?_, fun h => absurd h.2 (by omega)⟩,
      fun h => absurd h (by omega), fun _ _ => rfl⟩
    rintro ⟨b, hb⟩
    cases hb
  · refine ⟨⟨?_, fun h => absurd h.1 (by omega)⟩,
      fun _ => rfl, fun h => absurd h (by omega)⟩
    rintro ⟨b, hb⟩
    cases hb

/-- Witness for C4: success at `([1,2,3,4,5,6], 3, 2)`, `LowNumGroups` at
`([1,2,3,4,5,6], 2, 2)`, `TooFewSamples` at `([1,2], 3, 2)`. -/
theorem bootstrap_new_valid_witness :
    (∃ b, Bootstrap.new [1, 2, 3, 4, 5, 6] 3 2 () = .ok b) ∧
    Bootstrap.new [1, 2, 3, 4, 5, 6] 2 2 () = .error .lowNumGroups ∧
    Bootstrap.new [1, 2] 3 2 () = .error .tooFewSamples :=
  ⟨(bootstrap_new_valid [1, 2, 3, 4, 5, 6] 3 2 ()).1.2 (by decide),
    (bootstrap_new_valid [1, 2, 3, 4, 5, 6] 2 2 ()).2.1 (by decide),
    (bootstrap_new_valid [1, 2] 3 2 ()).2.2 (by decide) (by decide)⟩

/-- C7: on `FixedPartition`, `set_num_groups` and `set_unnorm_distr` always
return the `Immutable` error and leave the whole state unchanged. -/
theorem fixed_partition_immutable (fp : FixedPartition) (num_groups : Nat)
    (unnorm_distr : List Nat) :
    fp.set_num_groups num_groups = (.error .immutable, fp) ∧
    fp.set_unnorm_distr unnorm_distr = (.error .immutable, fp) :=
  ⟨rfl, rfl⟩

/-- C5: the invariant `num_groups > degree` is established by both
constructors and preserved by every mutation: `set_degree d` succeeds exactly
when `num_groups > d`, Bootstrap's `set_num_groups g` succeeds exactly when
`g > degree`, failing calls leave the state unchanged, and the state after any
call still satisfies the invariant. -/
theorem degree_below_num_groups_invariant :
    (∀ (R : Type) (b : Bootstrap R), b.degree < b.num_groups →
      (∀ d, ((b.set_degree d).1 = .ok () ↔ d < b.num_groups) ∧
        (b.set_degree d).2 =
          (if b.num_groups > d then { b with degree := d } else b) ∧
        (b.set_degree d).2.degree < (b.set_degree d).2.num_groups) ∧
      (∀ g, ((b.set_num_groups g).1 = .ok () ↔ b.degree < g) ∧
        (b.set_num_groups g).2 =
          (if g > b.degree then { b with num_groups := g } else b) ∧
        (b.set_num_groups g).2.degree < (b.set_num_groups g).2.num_groups) ∧
      (∀ u, (b.set_unnorm_distr u).2.degree
          < (b.set_unnorm_distr u).2.num_groups)) ∧
    (∀ (R : Type) (u : List Nat) (g d : Nat) (rng : R) (b : Bootstrap R),
      Bootstrap.new u g d rng = .ok b → b.degree < b.num_groups) ∧
    (∀ fp : FixedPartition, fp.degree < fp.num_groups →
      ∀ d, ((fp.set_degree d).1 = .ok () ↔ d < fp.num_groups) ∧
        (fp.set_degree d).2 =
          (if fp.num_groups > d then { fp with degree := d } else fp) ∧
        (fp.set_degree d).2.degree < (fp.set_degree d).2.num_groups) ∧
    (∀ s sz r d fp, FixedPartition.new s sz r d = .ok fp →
      fp.degree < fp.num_groups) := by
  refine ⟨fun R b hb => ⟨fun d => ?_, fun g => ?_, fun u => ?_⟩,
    fun R u g d rng b hok => ?_, fun fp hfp d => ?_, fun s sz r d fp hok => ?_⟩
  · simp only [Bootstrap.set_degree]
    split_ifs with h
    · exact ⟨by simp [h], rfl, h⟩
    · exact ⟨by simp [h], rfl, hb⟩
  · simp only [Bootstrap.set_num_groups]
    split_ifs with h
    · exact ⟨by simp [h], rfl, h⟩
    · exact ⟨by simp [h], rfl, hb⟩
  · simp only [Bootstrap.set_unnorm_distr]
    split_ifs with h
    · exact hb
    · exact hb
  · unfold Bootstrap.new at hok
    split_ifs at hok with h1 h2
    cases hok
    exact h1
  · simp only [FixedPartition.set_degree]
    split_ifs with h
    · exact ⟨by simp [h], rfl, h⟩
    · exact ⟨by simp [h], rfl, hfp⟩
  · simp only [FixedPartition.new] at hok
    split_ifs at hok with h1 h2 h3 h4 h5 h6
    cases hok
    simpa [FixedPartition.num_groups, FixedPartition.new_unchecked] using
      Nat.lt_of_not_le h1

/-- Witness for C5 at a Bootstrap over `[1,2,3,4,5,6]` (3 groups, degree 2)
and the FixedPartition of the crate's own test. -/
theorem degree_below_num_groups_invariant_witness :
    ((⟨3, 2, [1, 2, 3, 4, 5, 6], ()⟩ : Bootstrap Unit).degree
        < (⟨3, 2, [1, 2, 3, 4, 5, 6], ()⟩ : Bootstrap Unit).num_groups) ∧
    (((⟨3, 2, [1, 2, 3, 4, 5, 6], ()⟩ : Bootstrap Unit).set_degree 1).1
        = .ok () ↔ 1 < (⟨3, 2, [1, 2, 3, 4, 5, 6], ()⟩ : Bootstrap Unit).num_groups) ∧
    ((⟨[0, 0, 0, 1, 1, 2], [3, 2, 1], [1, 1, 1], 2⟩ : FixedPartition).degree
        < (⟨[0, 0, 0, 1, 1, 2], [3, 2, 1], [1, 1, 1], 2⟩ : FixedPartition).num_groups) ∧
    (((⟨[0, 0, 0, 1, 1, 2], [3, 2, 1], [1, 1, 1], 2⟩ : FixedPartition).set_degree 5).1
        = .ok () ↔ 5 < (⟨[0, 0, 0, 1, 1, 2], [3, 2, 1], [1, 1, 1], 2⟩ : FixedPartition).num_groups) :=
  ⟨by decide,
    ((degree_below_num_groups_invariant.1 Unit ⟨3, 2, [1, 2, 3, 4, 5, 6], ()⟩
      (by decide)).1 1).1,
    by decide,
    ((degree_below_num_groups_invariant.2.2.1
      ⟨[0, 0, 0, 1, 1, 2], [3, 2, 1], [1, 1, 1], 2⟩ (by decide)) 5).1⟩

/-- C6: `FixedPartition::new` succeeds iff the group count exceeds the degree,
the schedule arrays have equal length, no schedule entry is zero, and the
schedule needs at most `samples.len()` samples; each violated condition yields
its own named error variant, checked in source order. -/
theorem fixed_partition_new_valid (s sz r : List Nat) (d : Nat) :
    ((∃ fp, FixedPartition.new s sz r d = .ok fp) ↔
      (d < sz.length ∧ r.length = sz.length ∧ (∀ x ∈ r, x ≠ 0) ∧
        (∀ x ∈ sz, x ≠ 0) ∧
        ((sz.zip r).map (fun p => p.1 * p.2)).sum ≤ s.length)) ∧
    (∀ fp, FixedPartition.new s sz r d = .ok fp → fp = ⟨s, sz, r, d⟩) ∧
    (sz.length ≤ d → FixedPartition.new s sz r d = .error .lowNumGroups) ∧
    (d < sz.length → sz.length < r.length →
      FixedPartition.new s sz r d = .error .tooManyRepetitions) ∧
    (d < sz.length → r.length < sz.length →
      FixedPartition.new s sz r d = .error .tooManySubsampleSizes) ∧
    (d < sz.length → r.length = sz.length → (∃ x ∈ r, x = 0) →
      FixedPartition.new s sz r d = .error .nullRepetition) ∧
    (d < sz.length → r.length = sz.length → (∀ x ∈ r, x ≠ 0) →
      (∃ x ∈ sz, x = 0) →
      FixedPartition.new s sz r d = .error .nullSubsampleSize) ∧
    (d < sz.length → r.length = sz.length → (∀ x ∈ r, x ≠ 0) →
      (∀ x ∈ sz, x ≠ 0) →
      s.length < ((sz.zip r).map (fun p => p.1 * p.2)).sum →
      FixedPartition.new s sz r d = .error .tooFewSamples) := by
  have hmem : ∀ (l : List Nat), (0 : ℕ) ∉ l → ∀ x ∈ l, x ≠ 0 :=
    fun l hl x hx hx0 => hl (hx0 ▸ hx)
  simp only [FixedPartition.new, FixedPartition.new_unchecked]
  split_ifs with h1 h2 h3 h4 h5 h6
  · refine ⟨⟨?_, fun hR => absurd hR.1 (by omega)⟩, fun fp hfp => ?_,
      fun _ => rfl, fun hc _ => absurd hc (by omega),
      fun hc _ => absurd hc (by omega), fun hc _ _ => absurd hc (by omega),
      fun hc _ _ _ => absurd hc (by omega),
      fun hc _ _ _ _ => absurd hc (by omega)⟩
    · rintro ⟨fp, hfp⟩
      cases hfp
    · cases hfp
  · refine ⟨⟨?_, fun hR => absurd hR.2.1 (by omega)⟩, fun fp hfp => ?_,
      fun hc => absurd hc h1, fun _ _ => rfl,
      fun _ hc => absurd hc (by omega), fun _ hc _ => absurd hc (by omega),
      fun _ hc _ _ => absurd hc (by omega),
      fun _ hc _ _ _ => absurd hc (by omega)⟩
    · rintro ⟨fp, hfp⟩
      cases hfp
    · cases hfp
  · refine ⟨⟨?_, fun hR => absurd hR.2.1 (by omega)⟩, fun fp hfp => ?_,
      fun hc => absurd hc h1, fun _ hc => absurd hc (by omega),
      fun _ _ => rfl, fun _ hc _ => absurd hc (by omega),
      fun _ hc _ _ => absurd hc (by omega),
      fun _ hc _ _ _ => absurd hc (by omega)⟩
    · rintro ⟨fp, hfp⟩
      cases hfp
    · cases hfp
  · have h4e : ∃ x ∈ r, x = 0 := by simpa using h4
    obtain ⟨x0, hx0, hx00⟩ := h4e
    refine ⟨⟨?_, fun hR => absurd hx00 (hR.2.2.1 x0 hx0)⟩, fun fp hfp => ?_,
      fun hc => absurd hc h1, fun _ hc => absurd hc h2,
      fun _ hc => absurd hc h3, fun _ _ _ => rfl,
      fun _ _ hall _ => absurd hx00 (hall x0 hx0),
      fun _ _ hall _ _ => absurd hx00 (hall x0 hx0)⟩
    · rintro ⟨fp, hfp⟩
      cases hfp
    · cases hfp
  · have h5e : ∃ x ∈ sz, x = 0 := by simpa using h5
    obtain ⟨x0, hx0, hx00⟩ := h5e
    refine ⟨⟨?_, fun hR => absurd hx00 (hR.2.2.2.1 x0 hx0)⟩, fun fp hfp => ?_,
      fun hc => absurd hc h1, fun _ hc => absurd hc h2,
      fun _ hc => absurd hc h3,
      fun _ _ hex => absurd hex (by simpa using h4),
      fun _ _ _ _ => rfl,
      fun _ _ _ hall _ => absurd hx00 (hall x0 hx0)⟩
    · rintro ⟨fp, hfp⟩
      cases hfp
    · cases hfp
  · refine ⟨⟨?_, fun hR => absurd hR.2.2.2.2 (by omega)⟩, fun fp hfp => ?_,
      fun hc => absurd hc h1, fun _ hc => absurd hc h2,
      fun _ hc => absurd hc h3,
      fun _ _ hex => absurd hex (by simpa using h4),
      fun _ _ _ hex => absurd hex (by simpa using h5),
      fun _ _ _ _ _ => rfl⟩
    · rintro ⟨fp, hfp⟩
      cases hfp
    · cases hfp
  · refine ⟨⟨fun _ => ⟨by omega, by omega, hmem r (by simpa using h4),
        hmem sz (by simpa using h5), by omega⟩, fun _ => ⟨_, rfl⟩⟩,
      fun fp hfp => ?_,
      fun hc => absurd hc h1, fun _ hc => absurd hc h2,
      fun _ hc => absurd hc h3,
      fun _ _ hex => absurd hex (by simpa using h4),
      fun _ _ _ hex => absurd hex (by simpa using h5),
      fun _ _ _ _ hc => absurd hc h6⟩
    cases hfp
    rfl

/-- Witness for C6: one concrete input per outcome. -/
theorem fixed_partition_new_valid_witness :
    (∃ fp, FixedPartition.new [0, 0, 0, 1, 1, 2] [3, 2, 1] [1, 1, 1] 2
      = .ok fp) ∧
    FixedPartition.new [0, 0, 0, 1, 1, 2] [3, 2, 1] [1, 1, 1] 3
      = .error .lowNumGroups ∧
    FixedPartition.new [0, 0, 0, 1, 1, 2] [3, 2, 1] [1, 1, 1, 1] 2
      = .error .tooManyRepetitions ∧
    FixedPartition.new [0, 0, 0, 1, 1, 2] [3, 2, 1] [1, 1] 2
      = .error .tooManySubsampleSizes ∧
    FixedPartition.new [0, 0, 0, 1, 1, 2] [3, 2, 1] [1, 0, 1] 2
      = .error .nullRepetition ∧
    FixedPartition.new [0, 0, 0, 1, 1, 2] [3, 2, 0] [1, 1, 1] 2
      = .error .nullSubsampleSize ∧
    FixedPartition.new [0, 0] [3, 2, 1] [1, 1, 1] 2
      = .error .tooFewSamples :=
  ⟨(fixed_partition_new_valid [0, 0, 0, 1, 1, 2] [3, 2, 1] [1, 1, 1] 2).1.2
      ⟨by decide, by decide, by decide, by decide, by decide⟩,
    (fixed_partition_new_valid [0, 0, 0, 1, 1, 2] [3, 2, 1] [1, 1, 1] 3).2.2.1
      (by decide),
    (fixed_partition_new_valid [0, 0, 0, 1, 1, 2] [3, 2, 1] [1, 1, 1, 1] 2).2.2.2.1
      (by decide) (by decide),
    (fixed_partition_new_valid [0, 0, 0, 1, 1, 2] [3, 2, 1] [1, 1] 2).2.2.2.2.1
      (by decide) (by decide),
    (fixed_partition_new_valid [0, 0, 0, 1, 1, 2] [3, 2, 1] [1, 0, 1] 2).2.2.2.2.2.1
      (by decide) (by decide) ⟨0, by decide, rfl⟩,
    (fixed_partition_new_valid [0, 0, 0, 1, 1, 2] [3, 2, 0] [1, 1, 1] 2).2.2.2.2.2.2.1
      (by decide) (by decide) (by decide) ⟨0, by decide, rfl⟩,
    (fixed_partition_new_valid [0, 0] [3, 2, 1] [1, 1, 1] 2).2.2.2.2.2.2.2
      (by decide) (by decide) (by decide) (by decide) (by decide)⟩

theorem popMany_of_le (n : Nat) : ∀ l : List Nat, n ≤ l.length →
    ∃ sub rest, popMany l n = some (sub, rest) ∧ sub.length = n ∧
      rest.length = l.length - n := by
  induction n with
  | zero => exact fun l _ => ⟨[], l, rfl, rfl, by simp⟩
  | succ m ih =>
    intro l h
    have hne : l ≠ [] := by
      intro e
      subst e
      simp at h
    obtain ⟨x, hx⟩ := Option.ne_none_iff_exists'.mp
      (mt List.getLast?_eq_none_iff.mp hne)
    have hdl : l.dropLast.length = l.length - 1 := List.length_dropLast l
    obtain ⟨sub, rest, hpop, hsub, hrest⟩ := ih l.dropLast (by omega)
    refine ⟨x :: sub, rest, ?_, by simp [hsub], by omega⟩
    simp only [popMany, hx, hpop]

theorem drawGroup_of_le (rep : Nat) : ∀ (size : Nat) (l : List Nat),
    rep * size ≤ l.length →
    ∃ obs rest, drawGroup rep size l = some (obs, rest) ∧
      obs.length = rep ∧ obs.map Prod.fst = List.replicate rep size ∧
      rest.length = l.length - rep * size := by
  induction rep with
  | zero => exact fun size l _ => ⟨[], l, rfl, rfl, rfl, by simp⟩
  | succ m ih =>
    intro size l h
    have hms : (m + 1) * size = m * size + size := Nat.succ_mul m size
    obtain ⟨sub, rest, hpop, hsub, hrest⟩ := popMany_of_le size l (by omega)
    obtain ⟨obs, rest2, hdraw, hobs, hmap, hrest2⟩ := ih size rest (by omega)
    refine ⟨(size, (NaiveEstimator.new_unchecked (count_dup sub)).entropy) :: obs,
      rest2, ?_, by simp [hobs], ?_, by omega⟩
    · simp only [drawGroup, hpop, hdraw]
    · simp only [List.map_cons, hmap]
      rfl

theorem naiveEntropiesAux_of_le : ∀ (sizes reps l : List Nat),
    sizes.length ≤ reps.length →
    ((sizes.zip reps).map (fun p => p.1 * p.2)).sum ≤ l.length →
    ∃ ll dd, naiveEntropiesAux sizes reps l = some ll ∧
      dupAux sizes reps = some dd ∧ ll.map Prod.fst = dd ∧
      dd = ((sizes.zip reps).map (fun p => List.replicate p.2 p.1)).flatten ∧
      ll.length = (reps.take sizes.length).sum := by
  intro sizes
  induction sizes with
  | nil => exact fun reps l _ _ => ⟨[], [], rfl, rfl, rfl, rfl, by simp⟩
  | cons size sizes ih =>
    intro reps l hlen hsum
    cases reps with
    | nil => simp at hlen
    | cons rep reps =>
      simp only [List.zip_cons_cons, List.map_cons, List.sum_cons] at hsum
      obtain ⟨obs, rest, hdraw, hobs, hmapo, hrest⟩ :=
        drawGroup_of_le rep size l (by rw [Nat.mul_comm]; omega)
      obtain ⟨ll, dd, haux, hdup, hmap, hflat, hlen2⟩ :=
        ih reps rest (by simpa using hlen)
          (by rw [hrest, Nat.mul_comm rep size]; omega)
      refine ⟨obs ++ ll, List.replicate rep size ++ dd, ?_, ?_, ?_, ?_, ?_⟩
      · simp only [naiveEntropiesAux, List.head?, List.tail, hdraw, haux]
      · simp only [dupAux, List.head?, List.tail, hdup]
      · simp [hmapo, hmap]
      · simp [hflat]
      · simp [hobs, hlen2, List.take_cons]

/-- C8: for every validly constructed `FixedPartition`, `naive_entropies()`
leaves the state unchanged and returns `total_samples()` observations whose
first components are the schedule's sizes in order, each repeated per its
repetition count (equal to `size_subsamples_dup()`); concretely, the crate's
test partition yields 3 observations with sizes `[3, 2, 1]`. -/
theorem fixed_partition_naive_entropies :
    (∀ (s sz r : List Nat) (d : Nat) (fp : FixedPartition),
      FixedPartition.new s sz r d = .ok fp →
      ∃ l, fp.naive_entropies.1 = some l ∧ fp.naive_entropies.2 = fp ∧
        l.length = fp.total_samples ∧
        fp.size_subsamples_dup = some (l.map Prod.fst) ∧
        l.map Prod.fst
          = ((fp.size_subsamples.zip fp.samples_rep).map
              (fun p => List.replicate p.2 p.1)).flatten) ∧
    (∃ l, (FixedPartition.naive_entropies
        ⟨[0, 0, 0, 1, 1, 2], [3, 2, 1], [1, 1, 1], 2⟩).1 = some l ∧
      l.length = 3 ∧ l.map Prod.fst = [3, 2, 1]) := by
  have main : ∀ (s sz r : List Nat) (d : Nat) (fp : FixedPartition),
      FixedPartition.new s sz r d = .ok fp →
      ∃ l, fp.naive_entropies.1 = some l ∧ fp.naive_entropies.2 = fp ∧
        l.length = fp.total_samples ∧
        fp.size_subsamples_dup = some (l.map Prod.fst) ∧
        l.map Prod.fst
          = ((fp.size_subsamples.zip fp.samples_rep).map
              (fun p => List.replicate p.2 p.1)).flatten := by
    intro s sz r d fp hok
    simp only [FixedPartition.new, FixedPartition.new_unchecked] at hok
    split_ifs at hok with h1 h2 h3 h4 h5 h6
    cases hok
    obtain ⟨ll, dd, haux, hdup, hmap, hflat, hlen⟩ :=
      naiveEntropiesAux_of_le sz r s (by omega) (by omega)
    refine ⟨ll, haux, rfl, ?_, ?_, by rw [hmap, hflat]⟩
    · have hr : r.length = sz.length := by omega
      rw [FixedPartition.total_samples, hlen, ← hr, List.take_length]
    · rw [FixedPartition.size_subsamples_dup, hdup, hmap]
  refine ⟨main, ?_⟩
  obtain ⟨l, hl1, -, hl3, hl4, -⟩ :=
    main [0, 0, 0, 1, 1, 2] [3, 2, 1] [1, 1, 1] 2
      ⟨[0, 0, 0, 1, 1, 2], [3, 2, 1], [1, 1, 1], 2⟩ rfl
  refine ⟨l, hl1, by simpa using hl3, ?_⟩
  have : some ([3, 2, 1] : List Nat) = some (l.map Prod.fst) := by
    rw [← hl4]
    decide
  simpa using this.symm

/-- Witness for C8 at the crate's own test partition. -/
theorem fixed_partition_naive_entropies_witness :
    ∃ l, (FixedPartition.naive_entropies
        ⟨[0, 0, 0, 1, 1, 2], [3, 2, 1], [1, 1, 1], 2⟩).1 = some l ∧
      (FixedPartition.naive_entropies
        ⟨[0, 0, 0, 1, 1, 2], [3, 2, 1], [1, 1, 1], 2⟩).2
        = ⟨[0, 0, 0, 1, 1, 2], [3, 2, 1], [1, 1, 1], 2⟩ ∧
      l.length = FixedPartition.total_samples
        ⟨[0, 0, 0, 1, 1, 2], [3, 2, 1], [1, 1, 1], 2⟩ ∧
      FixedPartition.size_subsamples_dup
        ⟨[0, 0, 0, 1, 1, 2], [3, 2, 1], [1, 1, 1], 2⟩ = some (l.map Prod.fst) ∧
      l.map Prod.fst
        = (((FixedPartition.size_subsamples
              ⟨[0, 0, 0, 1, 1, 2], [3, 2, 1], [1, 1, 1], 2⟩).zip
            (FixedPartition.samples_rep
              ⟨[0, 0, 0, 1, 1, 2], [3, 2, 1], [1, 1, 1], 2⟩)).map
            (fun p => List.replicate p.2 p.1)).flatten :=
  fixed_partition_naive_entropies.1 [0, 0, 0, 1, 1, 2] [3, 2, 1] [1, 1, 1] 2
    ⟨[0, 0, 0, 1, 1, 2], [3, 2, 1], [1, 1, 1], 2⟩ rfl

/-- C9 counterexample: on the crate's own validly constructed test partition,
a complete run of `naive_entropies()` leaves the state unchanged, and
re-running on that state does not fail (no underflow): it returns the very
same full-length observation list, refuting the claimed failure. -/
theorem fixed_partition_rerun_counterexample :
    FixedPartition.new [0, 0, 0, 1, 1, 2] [3, 2, 1] [1, 1, 1] 2
      = .ok ⟨[0, 0, 0, 1, 1, 2], [3, 2, 1], [1, 1, 1], 2⟩ ∧
    (FixedPartition.naive_entropies
      ⟨[0, 0, 0, 1, 1, 2], [3, 2, 1], [1, 1, 1], 2⟩).2
      = ⟨[0, 0, 0, 1, 1, 2], [3, 2, 1], [1, 1, 1], 2⟩ ∧
    ((FixedPartition.naive_entropies
      ⟨[0, 0, 0, 1, 1, 2], [3, 2, 1], [1, 1, 1], 2⟩).2.naive_entropies).1
      = (FixedPartition.naive_entropies
        ⟨[0, 0, 0, 1, 1, 2], [3, 2, 1], [1, 1, 1], 2⟩).1 ∧
    ((FixedPartition.naive_entropies
      ⟨[0, 0, 0, 1, 1, 2], [3, 2, 1], [1, 1, 1], 2⟩).2.naive_entropies).1
      ≠ none := by
  refine ⟨rfl, rfl, rfl, ?_⟩
  obtain ⟨ll, dd, haux, -, -, -, -⟩ :=
    naiveEntropiesAux_of_le [3, 2, 1] [1, 1, 1] [0, 0, 0, 1, 1, 2]
      (by decide) (by decide)
  simp [FixedPartition.naive_entropies, haux]

/-- C9 amended: for every validly constructed `FixedPartition`, re-running
`naive_entropies()` after a complete prior run does not fail: each run clones
the internal sample buffer, so the state is unchanged and the second run
returns the identical full-length observation list. -/
theorem fixed_partition_rerun (s sz r : List Nat) (d : Nat)
    (fp : FixedPartition) (hok : FixedPartition.new s sz r d = .ok fp) :
    fp.naive_entropies.2 = fp ∧
    fp.naive_entropies.2.naive_entropies = fp.naive_entropies ∧
    ∃ l, fp.naive_entropies.2.naive_entropies.1 = some l ∧
      l.length = fp.total_samples := by
  simp only [FixedPartition.new, FixedPartition.new_unchecked] at hok
  split_ifs at hok with h1 h2 h3 h4 h5 h6
  cases hok
  obtain ⟨ll, dd, haux, hdup, hmap, hflat, hlen⟩ :=
    naiveEntropiesAux_of_le sz r s (by omega) (by omega)
  refine ⟨rfl, rfl, ll, haux, ?_⟩
  have hr : r.length = sz.length := by omega
  rw [FixedPartition.total_samples, hlen, ← hr, List.take_length]

/-- Witness for C9's amended statement at the crate's test partition. -/
theorem fixed_partition_rerun_witness :
    (FixedPartition.naive_entropies
      ⟨[0, 0, 0, 1, 1, 2], [3, 2, 1], [1, 1, 1], 2⟩).2
      = ⟨[0, 0, 0, 1, 1, 2], [3, 2, 1], [1, 1, 1], 2⟩ ∧
    (FixedPartition.naive_entropies
      ⟨[0, 0, 0, 1, 1, 2], [3, 2, 1], [1, 1, 1], 2⟩).2.naive_entropies
      = FixedPartition.naive_entropies
        ⟨[0, 0, 0, 1, 1, 2], [3, 2, 1], [1, 1, 1], 2⟩ ∧
    ∃ l, (FixedPartition.naive_entropies
        ⟨[0, 0, 0, 1, 1, 2], [3, 2, 1], [1, 1, 1], 2⟩).2.naive_entropies.1
        = some l ∧
      l.length = FixedPartition.total_samples
        ⟨[0, 0, 0, 1, 1, 2], [3, 2, 1], [1, 1, 1], 2⟩ :=
  fixed_partition_rerun [0, 0, 0, 1, 1, 2] [3, 2, 1] [1, 1, 1] 2
    ⟨[0, 0, 0, 1, 1, 2], [3, 2, 1], [1, 1, 1], 2⟩ rfl

theorem foldlDedup_spec : ∀ (l acc : List Nat), acc.Nodup →
    (l.foldl (fun acc x => if x ∈ acc then acc else acc ++ [x]) acc).Nodup ∧
    (∀ y, y ∈ l.foldl (fun acc x => if x ∈ acc then acc else acc ++ [x]) acc ↔
      y ∈ acc ∨ y ∈ l) := by
  intro l
  induction l with
  | nil => exact fun acc h => ⟨h, by simp⟩
  | cons x l ih =>
    intro acc h
    simp only [List.foldl_cons]
    by_cases hx : x ∈ acc
    · rw [if_pos hx]
      obtain ⟨h1, h2⟩ := ih acc h
      refine ⟨h1, fun y => ?_⟩
      rw [h2]
      constructor
      · rintro (hy | hy)
        · exact Or.inl hy
        · exact Or.inr (List.mem_cons_of_mem x hy)
      · rintro (hy | hy)
        · exact Or.inl hy
        · rcases List.mem_cons.mp hy with rfl | hy
          · exact Or.inl hx
          · exact Or.inr hy
    · rw [if_neg hx]
      have hacc : (acc ++ [x]).Nodup := by
        rw [List.nodup_append]
        exact ⟨h, List.nodup_singleton x,
          fun a ha hax => hx ((List.mem_singleton.mp hax) ▸ ha)⟩
      obtain ⟨h1, h2⟩ := ih (acc ++ [x]) hacc
      refine ⟨h1, fun y => ?_⟩
      rw [h2]
      simp only [List.mem_append, List.mem_singleton, List.mem_cons]
      tauto

theorem count_dup_sum (samples : List Nat) :
    (count_dup samples).sum = samples.length := by
  obtain ⟨hnd, hmem⟩ := foldlDedup_spec samples [] List.nodup_nil
  have hperm : List.Perm
      (samples.foldl (fun acc x => if x ∈ acc then acc else acc ++ [x]) [])
      samples.dedup := by
    rw [List.perm_ext_iff_of_nodup hnd (List.nodup_dedup samples)]
    intro a
    rw [hmem a, List.mem_dedup]
    simp
  rw [count_dup, List.Perm.sum_eq (List.Perm.map _ hperm)]
  exact List.sum_map_count_dedup_eq_length samples

/-- C10 counterexample: the convenience conversion from the histogram `[1]`
(total mass `1 < 2^3`) panics (`unwrap` of the failed default Bootstrap
construction, modelled by `none`), for both estimators. -/
theorem estimator_from_panics :
    Estimator.from_unnorm_distr [1] () = none ∧
    DirectEstimator.from_unnorm_distr [1] () = none := by
  constructor <;> rfl

/-- C10 amended: the `From` conversions of `Estimator` and `DirectEstimator`
complete without panicking exactly when the histogram's total count is at
least `2^3 = 8` (the default schedule is 3 groups, degree 2); the
sample-sequence conversions likewise require at least 8 samples. -/
theorem estimator_from_no_panic_iff {R : Type} (unnorm_distr samples : List Nat)
    (rng : R) :
    ((Estimator.from_unnorm_distr unnorm_distr rng).isSome ↔
      8 ≤ unnorm_distr.sum) ∧
    ((DirectEstimator.from_unnorm_distr unnorm_distr rng).isSome ↔
      8 ≤ unnorm_distr.sum) ∧
    ((Estimator.from_samples samples rng).isSome ↔ 8 ≤ samples.length) ∧
    ((DirectEstimator.from_samples samples rng).isSome ↔
      8 ≤ samples.length) := by
  have h8 : (1 <<< DEFAULT_NUM_GROUPS : Nat) = 8 := by decide
  have hb : ∀ u : List Nat,
      (∃ b, Bootstrap.new u DEFAULT_NUM_GROUPS DEFAULT_DEGREE rng = .ok b) ↔
        8 ≤ u.sum := by
    intro u
    rw [Bootstrap.new,
      if_pos (by decide : DEFAULT_NUM_GROUPS > DEFAULT_DEGREE)]
    by_cases h : u.sum ≥ 1 <<< DEFAULT_NUM_GROUPS
    · rw [if_pos h, h8] at *
      simp only [h, iff_true]
      exact ⟨_, rfl⟩
    · rw [if_neg h, h8] at *
      constructor
      · rintro ⟨b, hB⟩
        cases hB
      · intro hc
        omega
  have key : ∀ (α : Type) (f : Bootstrap R → α) (u : List Nat),
      ((Bootstrap.new u DEFAULT_NUM_GROUPS DEFAULT_DEGREE rng).toOption.map
        f).isSome ↔ 8 ≤ u.sum := by
    intro α f u
    rw [← hb u]
    rcases hB : Bootstrap.new u DEFAULT_NUM_GROUPS DEFAULT_DEGREE rng with e | b
    · simp [Except.toOption]
    · simp [Except.toOption]
  refine ⟨?_, ?_, ?_, ?_⟩
  · rw [Estimator.from_unnorm_distr, key]
  · rw [DirectEstimator.from_unnorm_distr, key]
  · rw [Estimator.from_samples, Estimator.from_unnorm_distr, key,
      count_dup_sum]
  · rw [DirectEstimator.from_samples, DirectEstimator.from_unnorm_distr, key,
      count_dup_sum]

/-- C1 (code bug evaluation): `[1, 0]` is a valid histogram (total mass 1),
yet `NaiveEstimator::entropy` returns NaN on it: the zero-count category
contributes `0.0 * (ln 0.0 - ln 1.0) = 0 * (-∞) = NaN` rather than `0`. -/
theorem naive_entropy_nan_on_zero_count :
    NaiveEstimator.new [1, 0] = .ok ⟨[1, 0]⟩ ∧
    NaiveEstimator.entropy ⟨[1, 0]⟩ = FP.nan := by
  refine ⟨rfl, ?_⟩
  simp only [NaiveEstimator.entropy, List.foldl, List.sum_cons, List.sum_nil]
  norm_num [FP.ln, FP.sub, FP.mul, FP.div]

/-- `FP.sub` on finite values. -/
theorem FP.sub_finite (x y : ℝ) : FP.sub (.finite x) (.finite y) = .finite (x - y) :=
  rfl

/-- `FP.mul` on finite values. -/
theorem FP.mul_finite (x y : ℝ) : FP.mul (.finite x) (.finite y) = .finite (x * y) :=
  rfl

/-- `FP.div` on finite values with nonzero divisor. -/
theorem FP.div_finite (x y : ℝ) (hy : y ≠ 0) :
    FP.div (.finite x) (.finite y) = .finite (x / y) := by
  simp only [FP.div, if_neg hy]

/-- `FP.ln` on positive finite values. -/
theorem FP.ln_finite_pos (x : ℝ) (hx : 0 < x) :
    FP.ln (.finite x) = .finite (Real.log x) := by
  simp only [FP.ln, if_pos hx]

/-- Supporting fact for C1: on histograms whose counts are all positive, the
entropy loop stays finite and computes exactly the plug-in entropy
`-Σᵢ (cᵢ/total)·ln(cᵢ/total)`; the NaN of `naive_entropy_nan_on_zero_count`
is produced only by zero counts. -/
theorem naive_entropy_of_positive_counts (l : List Nat)
    (hpos : ∀ c ∈ l, 0 < c) (hsum : 1 ≤ l.sum) :
    NaiveEstimator.entropy ⟨l⟩ =
      FP.finite (-((l.map (fun c : Nat => ((c : ℝ) / ((l.sum : ℕ) : ℝ)) *
        Real.log ((c : ℝ) / ((l.sum : ℕ) : ℝ)))).sum)) := by
  have key : ∀ (s : ℝ), 0 < s → ∀ (m : List ℕ), (∀ c ∈ m, 0 < c) → ∀ a : ℝ,
      m.foldl
        (fun acc c =>
          FP.sub acc
            (FP.mul (.finite ((c : ℕ) : ℝ))
              (FP.sub (FP.ln (.finite ((c : ℕ) : ℝ))) (FP.ln (.finite s)))))
        (.finite a)
      = .finite (a - (m.map
          (fun c : Nat => ((c : ℕ) : ℝ) *
            (Real.log ((c : ℕ) : ℝ) - Real.log s))).sum) := by
    intro s hs m
    induction m with
    | nil => intro _ a; simp
    | cons c m ih =>
      intro hm a
      have hc : (0 : ℝ) < ((c : ℕ) : ℝ) := by
        exact_mod_cast hm c (List.mem_cons_self c m)
      have hstep :
          FP.sub (.finite a)
            (FP.mul (.finite ((c : ℕ) : ℝ))
              (FP.sub (FP.ln (.finite ((c : ℕ) : ℝ))) (FP.ln (.finite s))))
          = FP.finite (a - ((c : ℕ) : ℝ) *
              (Real.log ((c : ℕ) : ℝ) - Real.log s)) := by
        rw [FP.ln_finite_pos _ hc, FP.ln_finite_pos _ hs, FP.sub_finite,
          FP.mul_finite, FP.sub_finite]
      rw [List.foldl_cons]
      show List.foldl _
          (FP.sub (.finite a)
            (FP.mul (.finite ((c : ℕ) : ℝ))
              (FP.sub (FP.ln (.finite ((c : ℕ) : ℝ))) (FP.ln (.finite s))))) m
        = _
      rw [hstep, ih (fun x hx => hm x (List.mem_cons_of_mem c hx))]
      simp only [List.map_cons, List.sum_cons]
      congr 1
      ring
  have hS : (0 : ℝ) < ((l.sum : ℕ) : ℝ) := by exact_mod_cast hsum
  have hSne : ((l.sum : ℕ) : ℝ) ≠ 0 := ne_of_gt hS
  simp only [NaiveEstimator.entropy]
  rw [key ((l.sum : ℕ) : ℝ) hS l hpos 0, FP.div_finite _ _ hSne]
  congr 1
  have hmap : l.map (fun c : Nat => ((c : ℝ) / ((l.sum : ℕ) : ℝ)) *
        Real.log ((c : ℝ) / ((l.sum : ℕ) : ℝ)))
      = l.map (fun c : Nat => (((c : ℕ) : ℝ) *
        (Real.log ((c : ℕ) : ℝ) - Real.log ((l.sum : ℕ) : ℝ)))
          / ((l.sum : ℕ) : ℝ)) := by
    apply List.map_congr_left
    intro c hc
    have hcpos : (0 : ℝ) < (c : ℝ) := by exact_mod_cast hpos c hc
    rw [Real.log_div (ne_of_gt hcpos) hSne, div_mul_eq_mul_div]
  have hdivsum : ∀ (m : List ℝ),
      (m.map (fun x => x / ((l.sum : ℕ) : ℝ))).sum
        = m.sum / ((l.sum : ℕ) : ℝ) := by
    intro m
    induction m with
    | nil => simp
    | cons x m ih => rw [List.map_cons, List.sum_cons, List.sum_cons, ih, add_div]
  have hcomp : l.map (fun c : Nat => (((c : ℕ) : ℝ) *
        (Real.log ((c : ℕ) : ℝ) - Real.log ((l.sum : ℕ) : ℝ)))
          / ((l.sum : ℕ) : ℝ))
      = (l.map (fun c : Nat => ((c : ℕ) : ℝ) *
        (Real.log ((c : ℕ) : ℝ) - Real.log ((l.sum : ℕ) : ℝ)))).map
          (fun x => x / ((l.sum : ℕ) : ℝ)) := by
    rw [List.map_map]
    rfl
  rw [hmap, hcomp, hdivsum]
  ring

end ApproxEntropy
